import Mathlib

/-!
A shallow embedding of the V4L2 M2M format converter
(`src/libcamera/converter/converter_v4l2_m2m.cpp`): the per-stream
conversion engine (`V4L2M2MConverter::Stream`) and the multi-stream
coordinator (`V4L2M2MConverter`).  Hardware device calls (`setFormat`,
`importBuffers`, `streamOn`, `queueBuffer`, ...) are modelled by result
oracles; buffers are identified by natural numbers, with `Option Nat`
standing for a possibly-null `FrameBuffer *`.  The pending-input table
`queue_` (a `std::map<FrameBuffer *, unsigned int>`) is an association
list of buffer identity and remaining-completions counter.
-/

namespace V4L2M2M

/-- `EINVAL` errno value; the source returns `-EINVAL` on validation
failures. -/
def EINVAL : Int := 22

/-- A V4L2 device format: fourcc code, frame size and the first plane's
bytes-per-line (`planes[0].bpl`).  The source sets `planesCount = 1`. -/
structure V4L2DeviceFormat where
  fourcc : Nat
  width : Nat
  height : Nat
  bpl : Nat
deriving DecidableEq, Repr

/-- The slice of a libcamera `StreamConfiguration` used by the converter:
pixel format, size, stride and buffer count. -/
structure StreamConfiguration where
  pixelFormat : Nat
  width : Nat
  height : Nat
  stride : Nat
  bufferCount : Nat
deriving DecidableEq, Repr

/-- Oracle for one V4L2 video device queue: the pixel-format translation
(`toV4L2PixelFormat`) and the behaviour of `setFormat`, split into the
returned status and the negotiated format written back by the driver. -/
structure VideoDeviceModel where
  toFourcc : Nat → Nat
  setFormatRet : V4L2DeviceFormat → Int
  setFormatNeg : V4L2DeviceFormat → V4L2DeviceFormat

/-- The input-side format request built by `Stream::configure`: requested
fourcc (translated pixel format), size and stride. -/
def inputFormatRequest (outDev : VideoDeviceModel) (inputCfg : StreamConfiguration) :
    V4L2DeviceFormat :=
  { fourcc := outDev.toFourcc inputCfg.pixelFormat
    width := inputCfg.width
    height := inputCfg.height
    bpl := inputCfg.stride }

/-- The output-side format request built by `Stream::configure`: requested
fourcc and size only (`format = {}` resets the stride to zero). -/
def outputFormatRequest (capDev : VideoDeviceModel) (outputCfg : StreamConfiguration) :
    V4L2DeviceFormat :=
  { fourcc := capDev.toFourcc outputCfg.pixelFormat
    width := outputCfg.width
    height := outputCfg.height
    bpl := 0 }

/-- `V4L2M2MConverter::Stream::configure`.  Negotiates the input side
first (fails with `-EINVAL` when the negotiated fourcc, size or stride
differs from the request), then the output side (fails with `-EINVAL`
when the negotiated fourcc or size differs; the negotiated stride is
accepted as-is).  On success returns the stored
`(inputBufferCount_, outputBufferCount_)` pair. -/
def streamConfigure (outDev capDev : VideoDeviceModel)
    (inputCfg outputCfg : StreamConfiguration) : Int × Option (Nat × Nat) :=
  let videoFormat := outDev.toFourcc inputCfg.pixelFormat
  let req := inputFormatRequest outDev inputCfg
  let ret := outDev.setFormatRet req
  if ret < 0 then (ret, none)
  else
    let fmt := outDev.setFormatNeg req
    if fmt.fourcc ≠ videoFormat ∨ fmt.width ≠ inputCfg.width ∨
        fmt.height ≠ inputCfg.height ∨ fmt.bpl ≠ inputCfg.stride then
      (-EINVAL, none)
    else
      let videoFormatOut := capDev.toFourcc outputCfg.pixelFormat
      let req2 := outputFormatRequest capDev outputCfg
      let ret2 := capDev.setFormatRet req2
      if ret2 < 0 then (ret2, none)
      else
        let fmt2 := capDev.setFormatNeg req2
        if fmt2.fourcc ≠ videoFormatOut ∨ fmt2.width ≠ outputCfg.width ∨
            fmt2.height ≠ outputCfg.height then
          (-EINVAL, none)
        else
          (0, some (inputCfg.bufferCount, outputCfg.bufferCount))

/-- Observable activation state of one engine: which sides have buffers
imported and which queues are streaming. -/
structure StreamState where
  inputImported : Bool
  outputImported : Bool
  inputStreaming : Bool
  outputStreaming : Bool
deriving DecidableEq, Repr

/-- The state of an engine that was never started (or was fully stopped). -/
def idleStream : StreamState :=
  { inputImported := false, outputImported := false
    inputStreaming := false, outputStreaming := false }

/-- Device operations issued by an engine's `start`/`stop`. The "input
side" is the V4L2 `output()` queue, the "output side" the `capture()`
queue, following the converter's orientation. -/
inductive DevOp where
  | importInput
  | importOutput
  | inputOn
  | outputOn
  | outputOff
  | inputOff
  | outputRelease
  | inputRelease
deriving DecidableEq, Repr

/-- Results returned by the device calls `Stream::stop` issues.  The
source discards them (`streamOff()`/`releaseBuffers()` return values are
ignored), so the oracle does not influence the resulting state. -/
structure StopResults where
  outputOffRet : Int
  inputOffRet : Int
  outputReleaseRet : Int
  inputReleaseRet : Int

/-- `V4L2M2MConverter::Stream::stop`: capture `streamOff`, output
`streamOff`, capture `releaseBuffers`, output `releaseBuffers`, with all
four return values discarded. -/
def streamStop (_o : StopResults) (st : StreamState) : StreamState × List DevOp :=
  ({ st with outputStreaming := false, inputStreaming := false
             outputImported := false, inputImported := false },
   [DevOp.outputOff, DevOp.inputOff, DevOp.outputRelease, DevOp.inputRelease])

/-- Results returned by the device calls `Stream::start` issues, plus
the results `stop` would observe when `start` unwinds. -/
structure StartResults where
  importInputRet : Int
  importOutputRet : Int
  inputOnRet : Int
  outputOnRet : Int
  stopResults : StopResults

/-- `V4L2M2MConverter::Stream::start`: import input-side buffers, import
output-side buffers, input `streamOn`, output `streamOn`, in that order.
A failure of any step after the first invokes `stop()` before the error
is returned; a failure of the first step returns immediately. -/
def streamStart (o : StartResults) (st : StreamState) :
    Int × StreamState × List DevOp :=
  if o.importInputRet < 0 then
    (o.importInputRet, st, [DevOp.importInput])
  else
    let st1 := { st with inputImported := true }
    if o.importOutputRet < 0 then
      (o.importOutputRet, (streamStop o.stopResults st1).1,
       [DevOp.importInput, DevOp.importOutput] ++ (streamStop o.stopResults st1).2)
    else
      let st2 := { st1 with outputImported := true }
      if o.inputOnRet < 0 then
        (o.inputOnRet, (streamStop o.stopResults st2).1,
         [DevOp.importInput, DevOp.importOutput, DevOp.inputOn] ++
           (streamStop o.stopResults st2).2)
      else
        let st3 := { st2 with inputStreaming := true }
        if o.outputOnRet < 0 then
          (o.outputOnRet, (streamStop o.stopResults st3).1,
           [DevOp.importInput, DevOp.importOutput, DevOp.inputOn, DevOp.outputOn] ++
             (streamStop o.stopResults st3).2)
        else
          (0, { st3 with outputStreaming := true },
           [DevOp.importInput, DevOp.importOutput, DevOp.inputOn, DevOp.outputOn])

/-- The body of the loop in `V4L2M2MConverter::configure`, started at
stream index `i` with `n` output configurations left.  `valid i` tells
whether engine `i`'s hardware handle opened (`Stream::isValid`), `cfgRet i`
the result of engine `i`'s own `configure`.  Returns the loop's final
`ret` and the indices of the engines emplaced into `streams_`. -/
def configureLoop (valid : Nat → Bool) (cfgRet : Nat → Int) : Nat → Nat → Int × List Nat
  | _, 0 => (0, [])
  | i, n + 1 =>
    if valid i = false then (-EINVAL, [i])
    else
      let r := cfgRet i
      if r < 0 then (r, [i])
      else
        ((configureLoop valid cfgRet (i + 1) n).1,
         i :: (configureLoop valid cfgRet (i + 1) n).2)

/-- `V4L2M2MConverter::configure` with `k` requested output formats:
clears `streams_`, runs the creation/configure loop, and clears again on
failure.  Returns `(ret, final streams_, engines attempted)`. -/
def converterConfigure (valid : Nat → Bool) (cfgRet : Nat → Int) (k : Nat) :
    Int × List Nat × List Nat :=
  let (ret, attempted) := configureLoop valid cfgRet 0 k
  if ret < 0 then (ret, [], attempted) else (0, attempted, attempted)

/-- `queue_.find(b)` on the pending-input table. -/
def qFind : List (Nat × Nat) → Nat → Option Nat
  | [], _ => none
  | (k, v) :: rest, b => if k = b then some v else qFind rest b

/-- `queue_.erase(it)`: remove the entry for `b`. -/
def qEraseKey : List (Nat × Nat) → Nat → List (Nat × Nat)
  | [], _ => []
  | (k, v) :: rest, b => if k = b then rest else (k, v) :: qEraseKey rest b

/-- In-place update of `b`'s counter (`it->second = v`). -/
def qUpdate : List (Nat × Nat) → Nat → Nat → List (Nat × Nat)
  | [], _, _ => []
  | (k, v) :: rest, b, v' => if k = b then (b, v') :: rest else (k, v) :: qUpdate rest b v'

/-- `queue_.emplace(b, v)`: like `std::map::emplace`, inserts only when no
entry for `b` exists, and otherwise leaves the table unchanged. -/
def qEmplace (q : List (Nat × Nat)) (b v : Nat) : List (Nat × Nat) :=
  match qFind q b with
  | some _ => q
  | none => q ++ [(b, v)]

/-- Largest `unsigned int` value: the counter wraps here if `--` were ever
applied to zero. -/
def UINT_MAX : Nat := 4294967295

/-- `V4L2M2MConverter::Stream::outputBufferReady`, the input-side
completion handler: look up `b` in `queue_`; if absent do nothing; else
apply `--it->second` (unsigned decrement) and, exactly when the result is
zero, emit `inputBufferReady` and erase the entry.  Returns the new table
and whether the input-consumed event was emitted. -/
def outputBufferReadyStep (q : List (Nat × Nat)) (b : Nat) : List (Nat × Nat) × Bool :=
  match qFind q b with
  | none => (q, false)
  | some c =>
    let c' := if c = 0 then UINT_MAX else c - 1
    if c' = 0 then (qEraseKey q b, true) else (qUpdate q b c', false)

/-- `V4L2M2MConverter::Stream::queueBuffers`: queue the input buffer to
the input-side queue, then the output buffer to the output-side queue,
returning the first failure. -/
def streamQueueBuffers (inQueueRet outQueueRet : Int) : Int :=
  if inQueueRet < 0 then inQueueRet
  else if outQueueRet < 0 then outQueueRet
  else 0

/-- The validation loop of `V4L2M2MConverter::queueBuffers`: walk the
`outputs` map in order; a null buffer or an out-of-range stream index
aborts with failure (`none`); otherwise collect the buffers inserted into
`outputBufs`. -/
def collectOutputBufs (nStreams : Nat) : List (Nat × Option Nat) → Option (List Nat)
  | [] => some []
  | (index, buffer) :: rest =>
    match buffer with
    | none => none
    | some buf =>
      if nStreams ≤ index then none
      else
        match collectOutputBufs nStreams rest with
        | none => none
        | some bufs => some (buf :: bufs)

/-- The submission loop of `V4L2M2MConverter::queueBuffers`: call
`streams_[index].queueBuffers(input, buffer)` for each map entry in
order, stopping at the first failure.  `engineRes index` is the result of
engine `index`'s `queueBuffers`.  Returns the final `ret` and the stream
indices whose engine was invoked, in invocation order. -/
def queueOutputsLoop (engineRes : Nat → Int) : List (Nat × Option Nat) → Int × List Nat
  | [] => (0, [])
  | (index, _) :: rest =>
    let r := engineRes index
    if r < 0 then (r, [index])
    else
      ((queueOutputsLoop engineRes rest).1,
       index :: (queueOutputsLoop engineRes rest).2)

/-- `V4L2M2MConverter::queueBuffers(input, outputs)` over a coordinator
with `nStreams` configured streams and pending table `q`.  The `outputs`
map is its entry list in key order.  Returns `(ret, engine invocation
trace, new pending table)`. -/
def converterQueueBuffers (engineRes : Nat → Int) (nStreams : Nat)
    (q : List (Nat × Nat)) (input : Nat) (outputs : List (Nat × Option Nat)) :
    Int × List Nat × List (Nat × Nat) :=
  if outputs.isEmpty then (-EINVAL, [], q)
  else
    match collectOutputBufs nStreams outputs with
    | none => (-EINVAL, [], q)
    | some bufs =>
      if bufs.dedup.length ≠ nStreams then (-EINVAL, [], q)
      else
        let ret := (queueOutputsLoop engineRes outputs).1
        let tr := (queueOutputsLoop engineRes outputs).2
        if ret < 0 then (ret, tr, q)
        else (0, tr, qEmplace q input (outputs.length))

/-- One engine-originated completion event for a single in-flight
request: `inputDone s` is stream `s`'s input-side `bufferReady` signal
for the shared input buffer, `outputReady s` is stream `s`'s output-side
(capture) `bufferReady` signal for its own output buffer. -/
inductive ConvEvent where
  | inputDone (s : Nat)
  | outputReady (s : Nat)
deriving DecidableEq, Repr

/-- Whether an event is an input-side completion. -/
def ConvEvent.isInputDone : ConvEvent → Bool
  | .inputDone _ => true
  | .outputReady _ => false

/-- A notification the coordinator emits upward: the input-consumed event
(`inputBufferReady`) or a forwarded output-ready event
(`outputBufferReady`) for stream `s`'s buffer. -/
inductive Notif where
  | consumed
  | ready (s : Nat)
deriving DecidableEq, Repr

/-- Serialized event dispatch for input buffer `b`: each
`outputReady s` is forwarded verbatim (`Stream::captureBufferReady`);
each `inputDone` runs the fan-in handler
(`Stream::outputBufferReady`), which emits the input-consumed event when
the last reference is released.  Returns the final pending table and the
emitted notifications in order. -/
def dispatch (q : List (Nat × Nat)) (b : Nat) : List ConvEvent → List (Nat × Nat) × List Notif
  | [] => (q, [])
  | ConvEvent.outputReady s :: rest =>
    ((dispatch q b rest).1, Notif.ready s :: (dispatch q b rest).2)
  | ConvEvent.inputDone _ :: rest =>
    ((dispatch (outputBufferReadyStep q b).1 b rest).1,
     (if (outputBufferReadyStep q b).2 then [Notif.consumed] else []) ++
       (dispatch (outputBufferReadyStep q b).1 b rest).2)

/-- The loop of `V4L2M2MConverter::stop` over `utils::reverse(streams_)`,
on `(index, state)` pairs already presented in reverse order: stop each
engine, recording the order in which engines were stopped. -/
def stopLoop (o : StopResults) : List (Nat × StreamState) → List (Nat × StreamState) × List Nat
  | [] => ([], [])
  | (i, st) :: rest =>
    ((i, (streamStop o st).1) :: (stopLoop o rest).1, i :: (stopLoop o rest).2)

/-- `V4L2M2MConverter::stop`: stop every engine, iterating `streams_` in
reverse.  Returns the engines (in `streams_` order) with their final
states, and the stop-invocation order. -/
def converterStop (o : StopResults) (streams : List StreamState) :
    List (Nat × StreamState) × List Nat :=
  let indexed := (List.range streams.length).zip streams
  ((stopLoop o indexed.reverse).1.reverse, (stopLoop o indexed.reverse).2)

/-- The state of a fully started engine. -/
def runningStream : StreamState :=
  { inputImported := true, outputImported := true
    inputStreaming := true, outputStreaming := true }

/-- The device operations that make up the start-up sequence (as opposed
to the unwinding `stop` issues). -/
def DevOp.isStartStep : DevOp → Bool
  | .importInput => true
  | .importOutput => true
  | .inputOn => true
  | .outputOn => true
  | _ => false

/-- The negotiated format the input-side `setFormat` writes back. -/
def negotiatedInput (outDev : VideoDeviceModel) (inputCfg : StreamConfiguration) :
    V4L2DeviceFormat :=
  outDev.setFormatNeg (inputFormatRequest outDev inputCfg)

/-- The negotiated format the output-side `setFormat` writes back. -/
def negotiatedOutput (capDev : VideoDeviceModel) (outputCfg : StreamConfiguration) :
    V4L2DeviceFormat :=
  capDev.setFormatNeg (outputFormatRequest capDev outputCfg)

/-- The input-side negotiation returned the requested pixel format, size
and stride unchanged. -/
def inputNegotiationMatches (outDev : VideoDeviceModel) (inputCfg : StreamConfiguration) :
    Prop :=
  (negotiatedInput outDev inputCfg).fourcc = outDev.toFourcc inputCfg.pixelFormat ∧
  (negotiatedInput outDev inputCfg).width = inputCfg.width ∧
  (negotiatedInput outDev inputCfg).height = inputCfg.height ∧
  (negotiatedInput outDev inputCfg).bpl = inputCfg.stride

/-- The output-side negotiation returned the requested pixel format and
size unchanged (the stride is not checked). -/
def outputNegotiationMatches (capDev : VideoDeviceModel) (outputCfg : StreamConfiguration) :
    Prop :=
  (negotiatedOutput capDev outputCfg).fourcc = capDev.toFourcc outputCfg.pixelFormat ∧
  (negotiatedOutput capDev outputCfg).width = outputCfg.width ∧
  (negotiatedOutput capDev outputCfg).height = outputCfg.height

/-- The output-ready notifications an event list gives rise to, in
order. -/
def readies (t : List ConvEvent) : List Notif :=
  t.filterMap fun e =>
    match e with
    | ConvEvent.outputReady s => some (Notif.ready s)
    | ConvEvent.inputDone _ => none

/-- Number of input-side completion events in an event list. -/
def countInputDone (t : List ConvEvent) : Nat :=
  (t.filter ConvEvent.isInputDone).length

/-! ### Helper lemmas -/

theorem stopLoop_eq (o : StopResults) (l : List (Nat × StreamState)) :
    stopLoop o l = (l.map fun p => (p.1, idleStream), l.map Prod.fst) := by
  induction l with
  | nil => rfl
  | cons p rest ih => simp [stopLoop, ih, streamStop]; rfl

theorem streamStop_state (o : StopResults) (st : StreamState) :
    (streamStop o st).1 = idleStream := rfl

/-! ### Claim theorems -/

/-- C9: engine `stop()` is idempotent: a second `stop()` leaves the state
of the first, and `stop()` on an engine that was never started leaves the
never-started state unchanged — whatever results the device calls
return. -/
theorem streamStop_idempotent (o o' : StopResults) (st : StreamState) :
    (streamStop o' ((streamStop o st).1)).1 = (streamStop o st).1 ∧
    (streamStop o idleStream).1 = idleStream :=
  ⟨rfl, rfl⟩

/-- C8: coordinator `stop()` stops every configured engine — each engine
ends in the stopped state — and does so in reverse creation order: the
stop-invocation trace is `[K-1, ..., 1, 0]`, whatever results the device
calls return. -/
theorem converterStop_reverse_order (o : StopResults) (streams : List StreamState) :
    (converterStop o streams).2 = (List.range streams.length).reverse ∧
    ((converterStop o streams).1).map Prod.fst = List.range streams.length ∧
    ((converterStop o streams).1).map Prod.snd =
      List.replicate streams.length idleStream := by
  have hlen : (List.range streams.length).length = streams.length := List.length_range _
  simp only [converterStop, stopLoop_eq]
  refine ⟨?_, ?_, ?_⟩
  · simp [List.map_reverse, List.map_fst_zip, hlen.le]
  · simp only [List.map_reverse, List.reverse_reverse, List.map_map]
    rw [show (Prod.fst ∘ fun p : Nat × StreamState => (p.1, idleStream)) = Prod.fst from rfl]
    exact List.map_fst_zip _ _ hlen.le
  · simp only [List.map_reverse, List.reverse_reverse, List.map_map]
    rw [show (Prod.snd ∘ fun p : Nat × StreamState => (p.1, idleStream)) =
          fun _ => idleStream from rfl]
    rw [List.map_const']
    simp [List.length_zip, hlen]

/-- C6: engine `start()` performs import input buffers, import output
buffers, activate input queue, activate output queue, in that order (the
issued start-up operations are always an in-order front of that
sequence); on any sub-step failure the engine ends fully unwound in the
stopped state, so from a stopped engine `start` is all-or-nothing. -/
theorem streamStart_all_or_nothing (o : StartResults) :
    ((streamStart o idleStream).1 < 0 → (streamStart o idleStream).2.1 = idleStream) ∧
    (0 ≤ (streamStart o idleStream).1 →
      (streamStart o idleStream).2.1 = runningStream ∧
      (streamStart o idleStream).2.2 =
        [DevOp.importInput, DevOp.importOutput, DevOp.inputOn, DevOp.outputOn]) ∧
    (∃ k, ((streamStart o idleStream).2.2).filter DevOp.isStartStep =
      List.take k [DevOp.importInput, DevOp.importOutput, DevOp.inputOn, DevOp.outputOn]) := by
  unfold streamStart streamStop
  split_ifs with h1 h2 h3 h4 <;> dsimp only <;> refine ⟨?_, ?_, ?_⟩ <;>
    first
      | exact fun _ => rfl
      | exact fun h => absurd h (by omega)
      | exact fun _ => ⟨rfl, rfl⟩
      | exact ⟨1, rfl⟩
      | exact ⟨2, rfl⟩
      | exact ⟨3, rfl⟩
      | exact ⟨4, rfl⟩

/-- C5: engine `configure` fails with the format-mismatch condition
(`-EINVAL`) whenever the negotiated input-side pixel format, size or
stride differs from the request; on the output side it fails if the
negotiated pixel format or size differs, while the negotiated stride is
accepted as-is; on success it stores the request's input and output
buffer counts. -/
theorem streamConfigure_negotiation (outDev capDev : VideoDeviceModel)
    (inputCfg outputCfg : StreamConfiguration)
    (hIn : 0 ≤ outDev.setFormatRet (inputFormatRequest outDev inputCfg)) :
    (¬ inputNegotiationMatches outDev inputCfg →
      streamConfigure outDev capDev inputCfg outputCfg = (-EINVAL, none)) ∧
    (inputNegotiationMatches outDev inputCfg →
      0 ≤ capDev.setFormatRet (outputFormatRequest capDev outputCfg) →
      ¬ outputNegotiationMatches capDev outputCfg →
      streamConfigure outDev capDev inputCfg outputCfg = (-EINVAL, none)) ∧
    (inputNegotiationMatches outDev inputCfg →
      0 ≤ capDev.setFormatRet (outputFormatRequest capDev outputCfg) →
      outputNegotiationMatches capDev outputCfg →
      streamConfigure outDev capDev inputCfg outputCfg =
        (0, some (inputCfg.bufferCount, outputCfg.bufferCount))) := by
  simp only [streamConfigure, inputNegotiationMatches, outputNegotiationMatches,
    negotiatedInput, negotiatedOutput]
  refine ⟨?_, ?_, ?_⟩
  · intro hmis
    rw [if_neg (by omega)]
    rw [if_pos]
    by_contra hc
    push_neg at hc
    exact hmis ⟨hc.1, hc.2.1, hc.2.2.1, hc.2.2.2⟩
  · intro hmat hOut hmis
    rw [if_neg (by omega), if_neg (by tauto), if_neg (by omega)]
    rw [if_pos]
    by_contra hc
    push_neg at hc
    exact hmis ⟨hc.1, hc.2.1, hc.2.2⟩
  · intro hmat hOut hmat2
    rw [if_neg (by omega), if_neg (by tauto), if_neg (by omega), if_neg (by tauto)]

theorem configureLoop_all_ok (valid : Nat → Bool) (cfgRet : Nat → Int) :
    ∀ n i, (∀ j, j < n → valid (i + j) = true ∧ 0 ≤ cfgRet (i + j)) →
      configureLoop valid cfgRet i n = (0, List.range' i n) := by
  intro n
  induction n with
  | zero => intro i _; rfl
  | succ n ih =>
    intro i h
    have h0 := h 0 (Nat.succ_pos n)
    rw [Nat.add_zero] at h0
    obtain ⟨hv, hr⟩ := h0
    have hrest : ∀ j, j < n → valid ((i + 1) + j) = true ∧ 0 ≤ cfgRet ((i + 1) + j) := by
      intro j hj
      have := h (j + 1) (by omega)
      rwa [show i + (j + 1) = (i + 1) + j by omega] at this
    simp only [configureLoop]
    rw [if_neg (by simp [hv]), if_neg (by omega), ih (i + 1) hrest, List.range'_succ]

theorem configureLoop_first_fail (valid : Nat → Bool) (cfgRet : Nat → Int) :
    ∀ m n i, m < n → (∀ j, j < m → valid (i + j) = true ∧ 0 ≤ cfgRet (i + j)) →
      (valid (i + m) = false ∨ cfgRet (i + m) < 0) →
      configureLoop valid cfgRet i n =
        ((if valid (i + m) = true then cfgRet (i + m) else -EINVAL), List.range' i (m + 1)) := by
  intro m
  induction m with
  | zero =>
    intro n i hn _ hbad
    obtain ⟨n', rfl⟩ : ∃ n', n = n' + 1 := ⟨n - 1, by omega⟩
    rw [Nat.add_zero] at hbad ⊢
    rcases hbad with hv | hr
    · simp [configureLoop, hv]
    · cases hv : valid i with
      | false => simp [configureLoop, hv]
      | true => simp [configureLoop, hv, hr]
  | succ m ih =>
    intro n i hn hpre hbad
    obtain ⟨n', rfl⟩ : ∃ n', n = n' + 1 := ⟨n - 1, by omega⟩
    have h0 := hpre 0 (Nat.succ_pos m)
    rw [Nat.add_zero] at h0
    obtain ⟨hv, hr⟩ := h0
    have hpre' : ∀ j, j < m → valid ((i + 1) + j) = true ∧ 0 ≤ cfgRet ((i + 1) + j) := by
      intro j hj
      have := hpre (j + 1) (by omega)
      rwa [show i + (j + 1) = (i + 1) + j by omega] at this
    have hbad' : valid ((i + 1) + m) = false ∨ cfgRet ((i + 1) + m) < 0 := by
      rwa [show (i + 1) + m = i + (m + 1) by omega]
    rw [show i + (m + 1) = (i + 1) + m by omega]
    simp only [configureLoop]
    rw [if_neg (by simp [hv]), if_neg (by omega), ih n' (i + 1) (by omega) hpre' hbad']
    simp [List.range'_succ]

/-- C4: coordinator `configure` with `k` output formats: if every engine
opens and configures, exactly engines `0..k-1` exist afterward in request
order; if engine `m` is the first to fail (invalid handle, reported as
`-EINVAL`, or its own configure failure, reported as that result), the
call returns that failure, engines `m+1..k-1` are never attempted, and
zero engines exist afterward. -/
theorem converterConfigure_engines (valid : Nat → Bool) (cfgRet : Nat → Int) (k : Nat) :
    ((∀ i, i < k → valid i = true ∧ 0 ≤ cfgRet i) →
      converterConfigure valid cfgRet k = (0, List.range k, List.range k)) ∧
    (∀ m, m < k → (∀ j, j < m → valid j = true ∧ 0 ≤ cfgRet j) →
      (valid m = false ∨ cfgRet m < 0) →
      converterConfigure valid cfgRet k =
        ((if valid m = true then cfgRet m else -EINVAL), [], List.range (m + 1))) := by
  constructor
  · intro h
    have := configureLoop_all_ok valid cfgRet k 0 (by simpa using h)
    simp [converterConfigure, this, List.range_eq_range']
  · intro m hm hpre hbad
    have := configureLoop_first_fail valid cfgRet m k 0 hm (by simpa using hpre)
      (by simpa using hbad)
    simp only [Nat.zero_add] at this
    have hneg : (if valid m = true then cfgRet m else -EINVAL) < 0 := by
      rcases hbad with hv | hr
      · simp [hv, EINVAL]
      · rcases hv : valid m with _ | _ <;> simp [hv, hr, EINVAL]
    simp [converterConfigure, this, hneg, List.range_eq_range']

theorem collectOutputBufs_some (nStreams : Nat) :
    ∀ (outputs : List (Nat × Option Nat)) (bufs : List Nat),
      collectOutputBufs nStreams outputs = some bufs →
      bufs = outputs.filterMap Prod.snd ∧ bufs.length = outputs.length ∧
        ∀ p ∈ outputs, p.2 ≠ none ∧ p.1 < nStreams := by
  intro outputs
  induction outputs with
  | nil =>
    intro bufs h
    simp only [collectOutputBufs] at h
    simp [← Option.some_inj.mp h]
  | cons p rest ih =>
    intro bufs h
    obtain ⟨index, buffer⟩ := p
    cases buffer with
    | none => simp [collectOutputBufs] at h
    | some buf =>
      simp only [collectOutputBufs] at h
      split_ifs at h with hidx
      cases hrec : collectOutputBufs nStreams rest with
      | none => rw [hrec] at h; simp at h
      | some bufs' =>
        rw [hrec] at h
        simp only [Option.some_inj] at h
        obtain ⟨hb, hlen, hall⟩ := ih bufs' hrec
        subst h
        refine ⟨by simp [hb], by simp [hlen], ?_⟩
        intro q hq
        rcases List.mem_cons.mp hq with hq | hq
        · subst hq; exact ⟨by simp, by omega⟩
        · exact hall q hq

theorem queueOutputsLoop_all_ok (engineRes : Nat → Int) :
    ∀ outputs : List (Nat × Option Nat), (∀ p ∈ outputs, 0 ≤ engineRes p.1) →
      queueOutputsLoop engineRes outputs = (0, outputs.map Prod.fst) := by
  intro outputs
  induction outputs with
  | nil => intro _; rfl
  | cons p rest ih =>
    intro h
    obtain ⟨index, buffer⟩ := p
    have h0 : 0 ≤ engineRes index := h (index, buffer) (by simp)
    simp only [queueOutputsLoop]
    rw [if_neg (by omega), ih fun q hq => h q (List.mem_cons_of_mem _ hq)]
    simp

theorem queueOutputsLoop_first_fail (engineRes : Nat → Int) :
    ∀ (pre : List (Nat × Option Nat)) (i : Nat) (b : Option Nat)
      (post : List (Nat × Option Nat)),
      (∀ p ∈ pre, 0 ≤ engineRes p.1) → engineRes i < 0 →
      queueOutputsLoop engineRes (pre ++ (i, b) :: post) =
        (engineRes i, pre.map Prod.fst ++ [i]) := by
  intro pre
  induction pre with
  | nil =>
    intro i b post _ hfail
    simp [queueOutputsLoop, if_pos hfail]
  | cons p rest ih =>
    intro i b post hok hfail
    obtain ⟨index, buffer⟩ := p
    have h0 : 0 ≤ engineRes index := hok (index, buffer) (by simp)
    have hih := ih i b post (fun q hq => hok q (List.mem_cons_of_mem _ hq)) hfail
    simp only [List.cons_append, queueOutputsLoop]
    rw [if_neg (by omega)]
    simp only [List.append_eq] at *
    rw [hih]
    simp

theorem qFind_append_fresh (v : Nat) :
    ∀ (q : List (Nat × Nat)) (b : Nat), qFind q b = none →
      qFind (q ++ [(b, v)]) b = some v := by
  intro q
  induction q with
  | nil => intro b _; simp [qFind]
  | cons p rest ih =>
    intro b h
    obtain ⟨k, w⟩ := p
    simp only [qFind] at h
    split_ifs at h with hk
    simp only [List.cons_append, qFind]
    rw [if_neg hk]
    exact ih b h

/-- C1: `queueBuffers` rejects an empty output map, a null output
buffer, an out-of-range stream index, or a distinct-output-buffer count
different from the configured stream count, with `-EINVAL`; no engine's
`queueBuffers` is invoked and the pending-input table is unchanged. -/
theorem queueBuffers_rejects_invalid (engineRes : Nat → Int) (nStreams : Nat)
    (q : List (Nat × Nat)) (input : Nat) (outputs : List (Nat × Option Nat))
    (h : outputs = [] ∨ (∃ p ∈ outputs, p.2 = none) ∨ (∃ p ∈ outputs, nStreams ≤ p.1) ∨
      (outputs.filterMap Prod.snd).dedup.length ≠ nStreams) :
    converterQueueBuffers engineRes nStreams q input outputs = (-EINVAL, [], q) := by
  by_cases hemp : outputs = []
  · simp [converterQueueBuffers, hemp]
  · have hne : outputs.isEmpty = false := by simpa using hemp
    simp only [converterQueueBuffers, hne, Bool.false_eq_true, if_false]
    cases hcol : collectOutputBufs nStreams outputs with
    | none => rfl
    | some bufs =>
      obtain ⟨hbufs, _, hgood⟩ := collectOutputBufs_some nStreams outputs bufs hcol
      rcases h with h | h | h | h
      · exact absurd h hemp
      · obtain ⟨p, hp, hpnone⟩ := h
        exact absurd hpnone (hgood p hp).1
      · obtain ⟨p, hp, hple⟩ := h
        have := (hgood p hp).2
        omega
      · dsimp only
        rw [if_pos (by rw [hbufs]; exact h)]

/-- C2: once validation passes, per-engine submissions run in map order;
on the first engine failure that result is returned at once, later
streams are not attempted and no pending entry is inserted; when every
submission succeeds the call returns 0 and registers the input with a
counter equal to the number of output streams in the request. -/
theorem queueBuffers_submission_order (engineRes : Nat → Int) (nStreams : Nat)
    (q : List (Nat × Nat)) (input : Nat) (outputs : List (Nat × Option Nat))
    (bufs : List Nat)
    (hne : outputs ≠ [])
    (hcol : collectOutputBufs nStreams outputs = some bufs)
    (hded : bufs.dedup.length = nStreams) :
    ((∀ p ∈ outputs, 0 ≤ engineRes p.1) →
      converterQueueBuffers engineRes nStreams q input outputs =
        (0, outputs.map Prod.fst, qEmplace q input outputs.length)) ∧
    (∀ (pre : List (Nat × Option Nat)) (i : Nat) (b : Option Nat)
      (post : List (Nat × Option Nat)),
      outputs = pre ++ (i, b) :: post →
      (∀ p ∈ pre, 0 ≤ engineRes p.1) → engineRes i < 0 →
      converterQueueBuffers engineRes nStreams q input outputs =
        (engineRes i, pre.map Prod.fst ++ [i], q)) ∧
    (qFind q input = none → (∀ p ∈ outputs, 0 ≤ engineRes p.1) →
      qFind (converterQueueBuffers engineRes nStreams q input outputs).2.2 input =
        some outputs.length) := by
  have hempf : outputs.isEmpty = false := by simpa using hne
  refine ⟨?_, ?_, ?_⟩
  · intro hall
    simp only [converterQueueBuffers, hempf, Bool.false_eq_true, if_false, hcol,
      if_neg (by omega : ¬ bufs.dedup.length ≠ nStreams),
      queueOutputsLoop_all_ok engineRes outputs hall]
    rw [if_neg (by omega)]
  · intro pre i b post heq hok hfail
    subst heq
    simp only [converterQueueBuffers, hempf, Bool.false_eq_true, if_false, hcol,
      if_neg (by omega : ¬ bufs.dedup.length ≠ nStreams),
      queueOutputsLoop_first_fail engineRes pre i b post hok hfail]
    rw [if_pos hfail]
  · intro hfresh hall
    simp only [converterQueueBuffers, hempf, Bool.false_eq_true, if_false, hcol,
      if_neg (by omega : ¬ bufs.dedup.length ≠ nStreams),
      queueOutputsLoop_all_ok engineRes outputs hall]
    rw [if_neg (by omega)]
    simp only [qEmplace, hfresh]
    exact qFind_append_fresh outputs.length q input hfresh

/-- C10: a `queueBuffers` call whose input buffer already has a live
pending entry, and whose validation and per-engine submissions succeed,
returns success while leaving the pending table completely unchanged —
the `std::map::emplace` silently drops the second registration. -/
theorem queueBuffers_requeue_not_recorded (engineRes : Nat → Int) (nStreams : Nat)
    (q : List (Nat × Nat)) (input : Nat) (outputs : List (Nat × Option Nat))
    (bufs : List Nat) (c : Nat)
    (hne : outputs ≠ [])
    (hcol : collectOutputBufs nStreams outputs = some bufs)
    (hded : bufs.dedup.length = nStreams)
    (hlive : qFind q input = some c)
    (hall : ∀ p ∈ outputs, 0 ≤ engineRes p.1) :
    converterQueueBuffers engineRes nStreams q input outputs =
      (0, outputs.map Prod.fst, q) := by
  have hempf : outputs.isEmpty = false := by simpa using hne
  simp only [converterQueueBuffers, hempf, Bool.false_eq_true, if_false, hcol,
    if_neg (by omega : ¬ bufs.dedup.length ≠ nStreams),
    queueOutputsLoop_all_ok engineRes outputs hall]
  rw [if_neg (by omega)]
  simp [qEmplace, hlive]

theorem qFind_some_mem : ∀ (q : List (Nat × Nat)) (b c : Nat),
    qFind q b = some c → (b, c) ∈ q := by
  intro q
  induction q with
  | nil => intro b c h; simp [qFind] at h
  | cons p rest ih =>
    intro b c h
    obtain ⟨k, v⟩ := p
    simp only [qFind] at h
    split_ifs at h with hk
    · obtain rfl := Option.some_inj.mp h
      subst hk
      simp
    · exact List.mem_cons_of_mem _ (ih b c h)

theorem mem_qEraseKey : ∀ (q : List (Nat × Nat)) (b : Nat) (p : Nat × Nat),
    p ∈ qEraseKey q b → p ∈ q := by
  intro q
  induction q with
  | nil => intro b p h; simp [qEraseKey] at h
  | cons hd rest ih =>
    intro b p h
    obtain ⟨k, v⟩ := hd
    simp only [qEraseKey] at h
    split_ifs at h with hk
    · exact List.mem_cons_of_mem _ h
    · rcases List.mem_cons.mp h with h | h
      · exact h ▸ List.mem_cons_self _ _
      · exact List.mem_cons_of_mem _ (ih b p h)

theorem mem_qUpdate : ∀ (q : List (Nat × Nat)) (b v : Nat) (p : Nat × Nat),
    p ∈ qUpdate q b v → p ∈ q ∨ p = (b, v) := by
  intro q
  induction q with
  | nil => intro b v p h; simp [qUpdate] at h
  | cons hd rest ih =>
    intro b v p h
    obtain ⟨k, w⟩ := hd
    simp only [qUpdate] at h
    split_ifs at h with hk
    · rcases List.mem_cons.mp h with h | h
      · exact Or.inr h
      · exact Or.inl (List.mem_cons_of_mem _ h)
    · rcases List.mem_cons.mp h with h | h
      · exact Or.inl (h ▸ List.mem_cons_self _ _)
      · rcases ih b v p h with h | h
        · exact Or.inl (List.mem_cons_of_mem _ h)
        · exact Or.inr h

theorem qFind_eq_none : ∀ (q : List (Nat × Nat)) (b : Nat),
    b ∉ q.map Prod.fst → qFind q b = none := by
  intro q
  induction q with
  | nil => intro b _; rfl
  | cons p rest ih =>
    intro b h
    obtain ⟨k, v⟩ := p
    simp only [List.map_cons, List.mem_cons] at h
    push_neg at h
    simp only [qFind]
    rw [if_neg (fun hk => h.1 hk.symm)]
    exact ih b h.2

theorem qFind_qEraseKey_self : ∀ (q : List (Nat × Nat)) (b : Nat),
    (q.map Prod.fst).Nodup → qFind (qEraseKey q b) b = none := by
  intro q
  induction q with
  | nil => intro b _; rfl
  | cons p rest ih =>
    intro b hnd
    obtain ⟨k, v⟩ := p
    simp only [List.map_cons, List.nodup_cons] at hnd
    simp only [qEraseKey]
    split_ifs with hk
    · subst hk
      exact qFind_eq_none rest k hnd.1
    · simp only [qFind]
      rw [if_neg hk]
      exact ih b hnd.2

/-- C3: the fan-in handler: a completion signal for a buffer with no
pending entry is a no-op; with a live entry of counter at least 2 it only
decrements; with counter 1 it removes the entry and emits the single
input-consumed event, after which a duplicate signal is a no-op (given
the table's distinct-key invariant); and it preserves the invariant that
every live entry's counter is strictly positive. -/
theorem outputBufferReady_fan_in (q : List (Nat × Nat)) (b : Nat)
    (hkeys : (q.map Prod.fst).Nodup) :
    (qFind q b = none → outputBufferReadyStep q b = (q, false)) ∧
    (∀ c, qFind q b = some c → 2 ≤ c →
      outputBufferReadyStep q b = (qUpdate q b (c - 1), false)) ∧
    (qFind q b = some 1 →
      outputBufferReadyStep q b = (qEraseKey q b, true) ∧
      outputBufferReadyStep (qEraseKey q b) b = (qEraseKey q b, false)) ∧
    ((∀ p ∈ q, 0 < p.2) → ∀ p ∈ (outputBufferReadyStep q b).1, 0 < p.2) := by
  refine ⟨?_, ?_, ?_, ?_⟩
  · intro h
    simp [outputBufferReadyStep, h]
  · intro c h hc
    simp only [outputBufferReadyStep, h]
    rw [if_neg (show ¬ c = 0 by omega), if_neg (show ¬ c - 1 = 0 by omega)]
  · intro h
    constructor
    · simp only [outputBufferReadyStep, h]
      rw [if_neg (show ¬ (1 : Nat) = 0 by omega), if_pos (show (1 : Nat) - 1 = 0 from rfl)]
    · have := qFind_qEraseKey_self q b hkeys
      simp [outputBufferReadyStep, this]
  · intro hpos p hp
    rcases hfind : qFind q b with _ | c
    · simp only [outputBufferReadyStep, hfind] at hp
      exact hpos p hp
    · have hcpos : 0 < c := hpos (b, c) (qFind_some_mem q b c hfind)
      simp only [outputBufferReadyStep, hfind] at hp
      rw [if_neg (show ¬ c = 0 by omega)] at hp
      by_cases hc1 : c - 1 = 0
      · rw [if_pos hc1] at hp
        exact hpos p (mem_qEraseKey q b p hp)
      · rw [if_neg hc1] at hp
        rcases mem_qUpdate q b (c - 1) p hp with h | h
        · exact hpos p h
        · subst h
          simp
          omega

theorem countInputDone_nil : countInputDone [] = 0 := rfl

theorem countInputDone_cons_ready (s : Nat) (t : List ConvEvent) :
    countInputDone (ConvEvent.outputReady s :: t) = countInputDone t := by
  simp [countInputDone, List.filter, ConvEvent.isInputDone]

theorem countInputDone_cons_done (s : Nat) (t : List ConvEvent) :
    countInputDone (ConvEvent.inputDone s :: t) = countInputDone t + 1 := by
  simp [countInputDone, List.filter, ConvEvent.isInputDone]

theorem countInputDone_append (u v : List ConvEvent) :
    countInputDone (u ++ v) = countInputDone u + countInputDone v := by
  simp [countInputDone, List.filter_append]

theorem readies_cons_ready (s : Nat) (t : List ConvEvent) :
    readies (ConvEvent.outputReady s :: t) = Notif.ready s :: readies t := by
  simp [readies]

theorem readies_cons_done (s : Nat) (t : List ConvEvent) :
    readies (ConvEvent.inputDone s :: t) = readies t := by
  simp [readies]

theorem consumed_not_mem_readies (t : List ConvEvent) :
    Notif.consumed ∉ readies t := by
  intro h
  simp only [readies, List.mem_filterMap] at h
  obtain ⟨e, _, he⟩ := h
  cases e <;> simp at he

theorem ready_mem_readies {s : Nat} {t : List ConvEvent}
    (h : ConvEvent.outputReady s ∈ t) : Notif.ready s ∈ readies t :=
  List.mem_filterMap.mpr ⟨ConvEvent.outputReady s, h, rfl⟩

theorem not_inputDone_of_count_zero {t : List ConvEvent}
    (h : countInputDone t = 0) : ∀ e ∈ t, e.isInputDone = false := by
  intro e he
  have hnil : t.filter ConvEvent.isInputDone = [] :=
    List.length_eq_zero.mp h
  rcases hd : e.isInputDone with _ | _
  · rfl
  · have : e ∈ t.filter ConvEvent.isInputDone := List.mem_filter.mpr ⟨he, hd⟩
    rw [hnil] at this
    simp at this

theorem dispatch_append (b : Nat) :
    ∀ (u v : List ConvEvent) (q : List (Nat × Nat)),
      dispatch q b (u ++ v) =
        ((dispatch (dispatch q b u).1 b v).1,
         (dispatch q b u).2 ++ (dispatch (dispatch q b u).1 b v).2) := by
  intro u
  induction u with
  | nil => intro v q; simp [dispatch]
  | cons e rest ih =>
    intro v q
    cases e with
    | outputReady s => simp [dispatch, ih]
    | inputDone s => simp [dispatch, ih]

theorem dispatch_empty_table (b : Nat) :
    ∀ t : List ConvEvent, dispatch [] b t = ([], readies t) := by
  intro t
  induction t with
  | nil => simp [dispatch, readies]
  | cons e rest ih =>
    cases e with
    | outputReady s => simp [dispatch, ih, readies_cons_ready]
    | inputDone s =>
      have hstep : outputBufferReadyStep [] b = ([], false) := rfl
      simp [dispatch, hstep, ih, readies_cons_done]

theorem dispatch_counting (b : Nat) :
    ∀ (t : List ConvEvent) (k : Nat), countInputDone t < k →
      dispatch [(b, k)] b t = ([(b, k - countInputDone t)], readies t) := by
  intro t
  induction t with
  | nil =>
    intro k _
    simp [dispatch, countInputDone_nil, readies]
  | cons e rest ih =>
    intro k hk
    cases e with
    | outputReady s =>
      have hk' : countInputDone rest < k := by rwa [countInputDone_cons_ready] at hk
      simp only [dispatch, ih k hk', readies_cons_ready, countInputDone_cons_ready]
    | inputDone s =>
      rw [countInputDone_cons_done] at hk
      have hfind : qFind [(b, k)] b = some k := by simp [qFind]
      have hstep : outputBufferReadyStep [(b, k)] b = ([(b, k - 1)], false) := by
        simp only [outputBufferReadyStep, hfind]
        rw [if_neg (show ¬ k = 0 by omega), if_neg (show ¬ k - 1 = 0 by omega)]
        simp [qUpdate]
      have hrec := ih (k - 1) (by omega)
      simp only [dispatch, hstep, Bool.false_eq_true, if_false, hrec,
        readies_cons_done, countInputDone_cons_done, List.nil_append]
      rw [show k - 1 - countInputDone rest = k - (countInputDone rest + 1) by omega]

theorem exists_last_inputDone :
    ∀ t : List ConvEvent, 0 < countInputDone t →
      ∃ (t1 : List ConvEvent) (s : Nat) (t2 : List ConvEvent),
        t = t1 ++ ConvEvent.inputDone s :: t2 ∧ countInputDone t2 = 0 ∧
        countInputDone t1 + 1 = countInputDone t := by
  intro t
  induction t with
  | nil => intro h; simp [countInputDone_nil] at h
  | cons e rest ih =>
    intro h
    by_cases hrest : 0 < countInputDone rest
    · obtain ⟨t1, s, t2, heq, h0, hc⟩ := ih hrest
      refine ⟨e :: t1, s, t2, by simp [heq], h0, ?_⟩
      cases e with
      | outputReady s' => rw [countInputDone_cons_ready, countInputDone_cons_ready]; exact hc
      | inputDone s' => rw [countInputDone_cons_done, countInputDone_cons_done]; omega
    · have h0 : countInputDone rest = 0 := by omega
      cases e with
      | outputReady s' =>
        rw [countInputDone_cons_ready] at h
        omega
      | inputDone s' =>
        exact ⟨[], s', rest, rfl, h0,
          by rw [countInputDone_cons_done, countInputDone_nil, h0]⟩

theorem dispatch_single_entry (b n : Nat) (t : List ConvEvent)
    (hn : 0 < n) (hcnt : countInputDone t = n)
    (hord : ∀ s, s < n → ∃ i j : Nat, i < j ∧ t[i]? = some (ConvEvent.outputReady s) ∧
      t[j]? = some (ConvEvent.inputDone s)) :
    ∃ pre post, (dispatch [(b, n)] b t).2 = pre ++ Notif.consumed :: post ∧
      Notif.consumed ∉ pre ∧ Notif.consumed ∉ post ∧
      ∀ s, s < n → Notif.ready s ∈ pre := by
  obtain ⟨t1, s0, t2, heq, h2, h1⟩ := exists_last_inputDone t (by omega)
  have hc1 : countInputDone t1 = n - 1 := by omega
  have hd1 : dispatch [(b, n)] b t1 = ([(b, 1)], readies t1) := by
    have := dispatch_counting b t1 n (by omega)
    rw [hc1, show n - (n - 1) = 1 by omega] at this
    exact this
  have hfind1 : qFind [(b, 1)] b = some 1 := by simp [qFind]
  have hstep : outputBufferReadyStep [(b, 1)] b = ([], true) := by
    simp only [outputBufferReadyStep, hfind1]
    rw [if_neg (show ¬ (1 : Nat) = 0 by omega), if_pos (show (1 : Nat) - 1 = 0 from rfl)]
    simp [qEraseKey]
  have htail : dispatch [(b, 1)] b (ConvEvent.inputDone s0 :: t2) =
      ([], Notif.consumed :: readies t2) := by
    simp [dispatch, hstep, dispatch_empty_table]
  have hres : (dispatch [(b, n)] b t).2 =
      readies t1 ++ Notif.consumed :: readies t2 := by
    rw [heq, dispatch_append, hd1, htail]
  refine ⟨readies t1, readies t2, hres, consumed_not_mem_readies t1,
    consumed_not_mem_readies t2, ?_⟩
  intro s hs
  obtain ⟨i, j, hij, hi, hj⟩ := hord s hs
  have hjlen : j < t1.length + 1 := by
    by_contra hcon
    push_neg at hcon
    have hge : t1.length ≤ j := by omega
    rw [heq, List.getElem?_append_right hge] at hj
    obtain ⟨m, hm⟩ : ∃ m, j - t1.length = m + 1 := ⟨j - t1.length - 1, by omega⟩
    rw [hm, List.getElem?_cons_succ] at hj
    have hmem : ConvEvent.inputDone s ∈ t2 := by
      obtain ⟨hlt, hget⟩ := List.getElem?_eq_some.mp hj
      exact hget ▸ List.getElem_mem _
    have := not_inputDone_of_count_zero h2 _ hmem
    simp [ConvEvent.isInputDone] at this
  have hilen : i < t1.length := by omega
  rw [heq, List.getElem?_append_left hilen] at hi
  have hmem : ConvEvent.outputReady s ∈ t1 := by
    obtain ⟨hlt, hget⟩ := List.getElem?_eq_some.mp hi
    exact hget ▸ List.getElem_mem _
  exact ready_mem_readies hmem

/-- C7: for an accepted `queueBuffers` call with exactly one output per
configured stream, run against any serialized completion-event order in
which every stream reports exactly one input-side completion and each
stream's output-ready event precedes its own input-side completion: the
input-consumed event is emitted exactly once, and only after an
output-ready event has been emitted for every stream of the call. -/
theorem queueBuffers_consumed_once_after_outputs
    (engineRes : Nat → Int) (nStreams : Nat) (input : Nat)
    (outputs : List (Nat × Option Nat)) (bufs : List Nat) (t : List ConvEvent)
    (hne : outputs ≠ [])
    (hcol : collectOutputBufs nStreams outputs = some bufs)
    (hded : bufs.dedup.length = nStreams)
    (hlen : outputs.length = nStreams)
    (hall : ∀ p ∈ outputs, 0 ≤ engineRes p.1)
    (hcnt : countInputDone t = nStreams)
    (hord : ∀ s, s < nStreams → ∃ i j : Nat, i < j ∧
      t[i]? = some (ConvEvent.outputReady s) ∧ t[j]? = some (ConvEvent.inputDone s)) :
    ∃ pre post,
      (dispatch (converterQueueBuffers engineRes nStreams [] input outputs).2.2 input t).2 =
        pre ++ Notif.consumed :: post ∧
      Notif.consumed ∉ pre ∧ Notif.consumed ∉ post ∧
      ∀ s, s < nStreams → Notif.ready s ∈ pre := by
  have hempf : outputs.isEmpty = false := by simpa using hne
  have hq : (converterQueueBuffers engineRes nStreams [] input outputs).2.2 =
      [(input, nStreams)] := by
    simp only [converterQueueBuffers, hempf, Bool.false_eq_true, if_false, hcol,
      if_neg (by omega : ¬ bufs.dedup.length ≠ nStreams),
      queueOutputsLoop_all_ok engineRes outputs hall]
    rw [if_neg (by omega)]
    simp [qEmplace, qFind, hlen]
  have hN : 0 < nStreams := by
    obtain ⟨_, hlenb, _⟩ := collectOutputBufs_some nStreams outputs bufs hcol
    rcases outputs with _ | ⟨p, rest⟩
    · exact absurd rfl hne
    · have hlb : bufs.length = rest.length + 1 := by simpa using hlenb
      have hbne : bufs ≠ [] := by intro hbn; rw [hbn] at hlb; simp at hlb
      have hdne : bufs.dedup ≠ [] := by simpa [List.dedup_eq_nil] using hbne
      have := List.length_pos.mpr hdne
      omega
  rw [hq]
  exact dispatch_single_entry input nStreams t hN hcnt hord

/-! ### Witnesses -/

theorem queueBuffers_rejects_invalid_witness :
    converterQueueBuffers (fun _ => 0) 2 [] 7 [(0, some 1), (1, some 1)] =
      (-EINVAL, [], []) :=
  queueBuffers_rejects_invalid (fun _ => 0) 2 [] 7 [(0, some 1), (1, some 1)]
    (Or.inr (Or.inr (Or.inr (by decide))))

theorem queueBuffers_submission_order_witness :
    converterQueueBuffers (fun _ => 0) 2 [] 7 [(0, some 1), (1, some 2)] =
      (0, [0, 1], [(7, 2)]) := by
  have h := (queueBuffers_submission_order (fun _ => 0) 2 [] 7 [(0, some 1), (1, some 2)]
    [1, 2] (by decide) (by decide) (by decide)).1 (by decide)
  simpa [qEmplace, qFind] using h

theorem outputBufferReady_fan_in_witness :
    outputBufferReadyStep [(7, 1)] 7 = ([], true) :=
  ((outputBufferReady_fan_in [(7, 1)] 7 (by decide)).2.2.1 (by decide)).1

theorem converterConfigure_engines_witness :
    converterConfigure (fun _ => true) (fun _ => 0) 2 = (0, List.range 2, List.range 2) :=
  (converterConfigure_engines (fun _ => true) (fun _ => 0) 2).1
    (fun _ _ => ⟨rfl, le_refl 0⟩)

theorem streamConfigure_negotiation_witness :
    streamConfigure ⟨id, fun _ => 0, id⟩ ⟨id, fun _ => 0, id⟩
      ⟨1, 2, 3, 4, 5⟩ ⟨6, 7, 8, 9, 10⟩ = (0, some (5, 10)) :=
  (streamConfigure_negotiation ⟨id, fun _ => 0, id⟩ ⟨id, fun _ => 0, id⟩
    ⟨1, 2, 3, 4, 5⟩ ⟨6, 7, 8, 9, 10⟩ (by decide)).2.2
    ⟨rfl, rfl, rfl, rfl⟩ (by decide) ⟨rfl, rfl, rfl⟩

theorem streamStart_all_or_nothing_witness :
    (streamStart ⟨0, -4, 0, 0, ⟨0, 0, 0, 0⟩⟩ idleStream).2.1 = idleStream :=
  (streamStart_all_or_nothing ⟨0, -4, 0, 0, ⟨0, 0, 0, 0⟩⟩).1 (by decide)

theorem queueBuffers_consumed_once_after_outputs_witness :
    ∃ pre post,
      (dispatch (converterQueueBuffers (fun _ => 0) 1 [] 7 [(0, some 5)]).2.2 7
        [ConvEvent.outputReady 0, ConvEvent.inputDone 0]).2 =
        pre ++ Notif.consumed :: post ∧
      Notif.consumed ∉ pre ∧ Notif.consumed ∉ post ∧
      ∀ s, s < 1 → Notif.ready s ∈ pre :=
  queueBuffers_consumed_once_after_outputs (fun _ => 0) 1 7 [(0, some 5)] [5]
    [ConvEvent.outputReady 0, ConvEvent.inputDone 0]
    (by decide) (by decide) (by decide) (by decide) (by decide) (by decide)
    (fun s hs => by
      have hs0 : s = 0 := by omega
      subst hs0
      exact ⟨0, 1, by omega, rfl, rfl⟩)

theorem queueBuffers_requeue_not_recorded_witness :
    converterQueueBuffers (fun _ => 0) 2 [(7, 2)] 7 [(0, some 1), (1, some 2)] =
      (0, [0, 1], [(7, 2)]) := by
  have h := queueBuffers_requeue_not_recorded (fun _ => 0) 2 [(7, 2)] 7
    [(0, some 1), (1, some 2)] [1, 2] 2 (by decide) (by decide) (by decide)
    (by decide) (by decide)
  simpa using h

end V4L2M2M
